import Mathlib

/-!
Verification of the Mega.nz download bot (`src/mega.py`) against its
natural-language specification.

The development shallowly embeds the transfer-and-relay pipeline of the
source file:

* `chunks` / `split_and_upload` — the chunk splitter (`split_and_upload`,
  `src/mega.py` lines 105-130);
* `update_progress` — the polling progress monitor (lines 132-146);
* `renderLink` / `download_file` — the link guard and pipeline orchestrator
  (`download_file`, lines 148-209), modelled as a trace-producing
  interpreter over an environment supplying the outcomes of the external
  collaborators (Mega fetch, zip extraction, Telegram uploads).

File contents are byte lists (`List Nat`); filesystem paths are split into
the staging directory `downloads/`, staged file names, chunk files and
extracted members.  Machine-level concerns (actual I/O, wall-clock time,
message editing) are outside the embedding; the interpreter records the
externally meaningful actions as an event trace.
-/

set_option maxHeartbeats 1000000

namespace MegaBot

/-! ### Chunk splitter (`split_and_upload`, src/mega.py lines 105-130)

The Python loop repeatedly calls `f.read(chunk_size)` and stops at the
first empty read.  On a regular file `read(C)` returns the next
`min C remaining` bytes, and `read 0` returns the empty string, so the
loop body fires once per `take C` slice of the remaining content. -/

/-- Fuel-indexed helper for `chunks`.  The Python loop terminates because
each non-empty read consumes at least one byte, so `fuel = l.length`
bounds the number of iterations; structural recursion on the fuel keeps
the definition kernel-computable. -/
def chunksAux (C : Nat) : Nat → List Nat → List (List Nat)
  | _, [] => []
  | 0, _ :: _ => []
  | fuel + 1, a :: l =>
    if C = 0 then []
    else (a :: l).take C :: chunksAux C fuel ((a :: l).drop C)

/-- The sequence of chunk payloads produced by the read loop of
`split_and_upload` for a file with byte content `l` and chunk size `C`.
Mirrors: `chunk = f.read(chunk_size); if not chunk: break`; on a regular
file `read(C)` returns the next `min C remaining` bytes and `read(0)`
returns the empty string. -/
def chunks (C : Nat) (l : List Nat) : List (List Nat) :=
  chunksAux C l.length l

/-! ### Part naming and captions (`split_and_upload`, src/mega.py lines 120-128)

The loop body writes each chunk to `f"{file_path}.part{chunk_index}"` and
uploads it with caption
`f"Part {chunk_index + 1}/{(file_size // chunk_size) + 1} of {base_name}"`,
where `base_name = os.path.basename(file_path)`. -/

/-- `os.path.basename`: the part of the path after the last `/`. -/
def basename (s : String) : String :=
  ⟨(s.data.reverse.takeWhile (fun c => c != '/')).reverse⟩

/-- Chunk file path: `f"{file_path}.part{chunk_index}"`. -/
def partPath (file_path : String) (i : Nat) : String :=
  file_path ++ ".part" ++ toString i

/-- Upload caption of chunk `i`:
`f"Part {chunk_index + 1}/{(file_size // chunk_size) + 1} of {base_name}"`.
Note the displayed total is `file_size // chunk_size + 1` (floor division
plus one), computed from the sizes, not from the chunks actually made. -/
def partCaption (file_size C : Nat) (base : String) (i : Nat) : String :=
  "Part " ++ toString (i + 1) ++ "/" ++ toString (file_size / C + 1) ++
    " of " ++ base

/-- The `(chunk file path, caption)` pairs sent by `split_and_upload`, in
upload order: one per chunk the read loop produces. -/
def split_and_upload (C : Nat) (file_path : String) (content : List Nat) :
    List (String × String) :=
  (List.range (chunks C content).length).map
    (fun i => (partPath file_path i,
               partCaption content.length C (basename file_path) i))

/-- Stated from the claim's words (for comparison with the code): the
caption total is the number of chunks actually produced. -/
def claimedCaption (C : Nat) (content : List Nat) (base : String) (i : Nat) :
    String :=
  "Part " ++ toString (i + 1) ++ "/" ++ toString (chunks C content).length ++
    " of " ++ base

/-- Stated from the claim's words: the uploads `split_and_upload` should
make if every caption total were the actual chunk count. -/
def claimedUploads (C : Nat) (file_path : String) (content : List Nat) :
    List (String × String) :=
  (List.range (chunks C content).length).map
    (fun i => (partPath file_path i,
               claimedCaption C content (basename file_path) i))

/-! ### Source-link guard (`download_file`, src/mega.py lines 148-159)

The handler fires on text matching
`https://mega\.nz/(file|folder)/[A-Za-z0-9_-]+(?:#[A-Za-z0-9_-]+)?` and
then rejects with the "Folder downloads are not supported" reply exactly
when `"folder" in mega_link`, a substring test on the whole matched
text. -/

/-- `isPref sub s`: `sub` is a leading segment of `s`. -/
def isPref : List Char → List Char → Bool
  | [], _ => true
  | _ :: _, [] => false
  | a :: as, b :: bs => a == b && isPref as bs

/-- Python's substring test `sub in s`, scanning every start position. -/
def pyIn (sub : List Char) : List Char → Bool
  | [] => isPref sub []
  | c :: s => isPref sub (c :: s) || pyIn sub s

inductive LinkKind where
  | file
  | folder
deriving DecidableEq

/-- A link matched by the handler's regex, in structured form. -/
structure MegaLink where
  kind : LinkKind
  id : List Char
  key : Option (List Char)

def kindChars : LinkKind → List Char
  | .file => ['f', 'i', 'l', 'e']
  | .folder => ['f', 'o', 'l', 'd', 'e', 'r']

def keyChars : Option (List Char) → List Char
  | none => []
  | some k => '#' :: k

/-- The matched link text `https://mega.nz/{file|folder}/<id>[#<key>]`. -/
def renderLink (l : MegaLink) : List Char :=
  ['h', 't', 't', 'p', 's', ':'] ++ '/' ::
    ('/' :: (['m', 'e', 'g', 'a', '.', 'n', 'z'] ++
      '/' :: (kindChars l.kind ++ '/' :: (l.id ++ keyChars l.key))))

def folderChars : List Char := ['f', 'o', 'l', 'd', 'e', 'r']

/-- The guard `if "folder" in mega_link:` (src/mega.py line 157). -/
def rejectsAsFolder (l : MegaLink) : Bool :=
  pyIn folderChars (renderLink l)

/-- The regex character class `[A-Za-z0-9_-]` for ids and keys. -/
def linkChar (c : Char) : Bool :=
  c.isAlpha || c.isDigit || c == '_' || c == '-'

/-- The link matches the handler's regex: nonempty id (and, when present,
key) over the allowed character class. -/
def wfLink (l : MegaLink) : Bool :=
  !l.id.isEmpty && l.id.all linkChar &&
    (match l.key with
     | none => true
     | some k => !k.isEmpty && k.all linkChar)

/-! ### Content classifier (src/mega.py line 173) -/

/-- The four bytes `PK\x03\x04` heading every zip archive. -/
def zipSignature : List Nat := [80, 75, 3, 4]

/-- Modelled from the spec: `zipfile.is_zipfile` is Python standard-library
code, not part of `src/`; per the spec the classification "is made by
inspecting a format-identifying byte signature at the start of the file,
never by filename extension". -/
def is_zipfile (content : List Nat) : Bool :=
  zipSignature.isPrefixOf content

inductive FileClass where
  | archive
  | plain
deriving DecidableEq

/-- The branch `if zipfile.is_zipfile(file_path):` — the decision reads the
bytes stored at the path; the file's name serves only to locate them. -/
def classify (_name : String) (content : List Nat) : FileClass :=
  if is_zipfile content then .archive else .plain

/-! ### The pipeline orchestrator (`download_file`, src/mega.py lines 148-209)

The handler is modelled as a trace-producing interpreter.  An `Env`
supplies the outcomes of the external collaborators: the Mega fetch
(`mega_client.download_url`), the zip extraction (`ZipFile.extractall`,
consulted only when the content carries the zip signature; its member
list is given in `os.walk` enumeration order), and each Telegram
`send_document` call by 0-based ordinal within the job (`none` means the
call succeeds, `some e` means it raises with message `e`).  Any raised
exception lands in the single `except` handler of lines 207-209. -/

structure FetchedObject where
  name : String
  content : List Nat
deriving DecidableEq

/-- One extracted member: directory components relative to
`downloads/extracted`, plus its file name. -/
structure MemberFile where
  dirs : List String
  name : String
deriving DecidableEq

/-- A file location inside the staging area. -/
inductive Loc where
  | staged (name : String)
  | chunkFile (name : String) (i : Nat)
  | member (dirs : List String) (name : String)
deriving DecidableEq

inductive DirLoc where
  | downloads
  | extracted
deriving DecidableEq

/-- Externally meaningful actions of one job, in program order. -/
inductive Ev where
  | mkdirDir (d : DirLoc)
  | fetchStart
  | fetched (name : String)
  | send (p : Loc) (caption : String)
  | removeFile (p : Loc)
  | rmdirDir (d : DirLoc)
  | split
deriving DecidableEq

inductive Status where
  | completed
  | failed (msg : String)
  | unsupported
deriving DecidableEq

structure Env where
  fetch : Except String FetchedObject
  extract : Except String (List MemberFile)
  uploadOk : Nat → Option String

structure JobResult where
  status : Status
  trace : List Ev
deriving DecidableEq

/-- `chunk_size = 2 * 1024 * 1024 * 1024` (line 107) and the threshold of
line 195. -/
def chunkLimit : Nat := 2 * 1024 * 1024 * 1024

/-- Caption of the single-upload path (line 202). -/
def heartCaption : String := "❤️ Created by @NT_BOT_CHANNEL"

/-- Prefix of the message produced by the `except` handler (line 209). -/
def errHead : String := "❌ An error occurred while processing your link: "

/-- Message of the `OSError` raised by `os.rmdir` on a non-empty
directory. -/
def rmdirErrMsg : String := "[Errno 39] Directory not empty: 'downloads/extracted'"

/-- Directories `extractall` creates under `downloads/extracted`: one per
member with a non-trivial relative directory.  `os.walk` + `os.remove`
delete only files, so exactly these survive the upload loop. -/
def extractedSubdirs (ms : List MemberFile) : List (List String) :=
  (ms.map MemberFile.dirs).filter (fun d => !d.isEmpty)

/-- Upload loop over extracted members (lines 183-191): for each file, one
`send_document` call (captioned `f"Extracted file: {file}"`), which may
raise and abort the job, then `os.remove` of that member.  `k` is the
ordinal of the next upload; the returned option is the raised message, if
any. -/
def memberLoop (upOk : Nat → Option String) :
    Nat → List MemberFile → List Ev × Option String
  | _, [] => ([], none)
  | k, m :: ms =>
    match upOk k with
    | some e =>
      ([Ev.send (.member m.dirs m.name) ("Extracted file: " ++ m.name)], some e)
    | none =>
      let r := memberLoop upOk (k + 1) ms
      (Ev.send (.member m.dirs m.name) ("Extracted file: " ++ m.name) ::
        Ev.removeFile (.member m.dirs m.name) :: r.1, r.2)

/-- Upload loop of `split_and_upload` (lines 113-130): per produced chunk,
write the chunk file, `send_document` it (which may raise), then remove
it.  `base` is the staged file's name, `S` its byte size. -/
def chunkLoop (upOk : Nat → Option String) (base : String) (S : Nat) :
    Nat → List (List Nat) → List Ev × Option String
  | _, [] => ([], none)
  | i, _ :: cs =>
    match upOk i with
    | some e =>
      ([Ev.send (.chunkFile base i) (partCaption S chunkLimit base i)], some e)
    | none =>
      let r := chunkLoop upOk base S (i + 1) cs
      (Ev.send (.chunkFile base i) (partCaption S chunkLimit base i) ::
        Ev.removeFile (.chunkFile base i) :: r.1, r.2)

/-- The body of `download_file` after the guard (lines 161-209).

Modelling notes, all traceable to the source:
* `os.makedirs("downloads/", exist_ok=True)` precedes the `try` block and
  nothing ever removes that directory;
* a raised exception at any point jumps to the `except` handler, whose
  message is `errHead ++ str(e)`;
* on the archive path the original file is removed (line 180) only after
  `extractall` returned, and before the upload loop;
* `os.rmdir(extracted_path)` (line 193) is a non-recursive removal: after
  the loop has removed every member file it raises "Directory not empty"
  iff `extractall` created at least one subdirectory;
* on the oversized-plain path `split_and_upload` returns without removing
  the original file; on the small-plain path the file is removed (line
  204) right after its successful upload. -/
def processJob (env : Env) : JobResult :=
  let pre : List Ev := [Ev.mkdirDir .downloads, Ev.fetchStart]
  match env.fetch with
  | .error e => { status := .failed (errHead ++ e), trace := pre }
  | .ok obj =>
    let tr1 := pre ++ [Ev.fetched obj.name]
    match classify obj.name obj.content with
    | .archive =>
      let tr2 := tr1 ++ [Ev.mkdirDir .extracted]
      match env.extract with
      | .error e => { status := .failed (errHead ++ e), trace := tr2 }
      | .ok ms =>
        let tr3 := tr2 ++ [Ev.removeFile (.staged obj.name)]
        let r := memberLoop env.uploadOk 0 ms
        match r.2 with
        | some e => { status := .failed (errHead ++ e), trace := tr3 ++ r.1 }
        | none =>
          if extractedSubdirs ms = [] then
            { status := .completed,
              trace := tr3 ++ r.1 ++ [Ev.rmdirDir .extracted] }
          else
            { status := .failed (errHead ++ rmdirErrMsg), trace := tr3 ++ r.1 }
    | .plain =>
      if chunkLimit < obj.content.length then
        let r := chunkLoop env.uploadOk obj.name obj.content.length 0
          (chunks chunkLimit obj.content)
        match r.2 with
        | some e =>
          { status := .failed (errHead ++ e), trace := tr1 ++ Ev.split :: r.1 }
        | none =>
          { status := .completed, trace := tr1 ++ Ev.split :: r.1 }
      else
        match env.uploadOk 0 with
        | some e =>
          { status := .failed (errHead ++ e),
            trace := tr1 ++ [Ev.send (.staged obj.name) heartCaption] }
        | none =>
          { status := .completed,
            trace := tr1 ++ [Ev.send (.staged obj.name) heartCaption,
                             Ev.removeFile (.staged obj.name)] }

/-- The full handler `download_file`: the folder-substring guard of lines
156-159 (which replies and returns before `os.makedirs` and before any
network I/O), then the pipeline. -/
def download_file (link : MegaLink) (env : Env) : JobResult :=
  if rejectsAsFolder link then { status := .unsupported, trace := [] }
  else processJob env

/-- The upload attempts recorded in a trace, in order. -/
def sendsOf (tr : List Ev) : List (Loc × String) :=
  tr.filterMap (fun e =>
    match e with
    | .send p c => some (p, c)
    | _ => none)

def notSend (e : Ev) : Bool :=
  match e with
  | .send _ _ => false
  | _ => true

/-- One filesystem step for directory `d`: `mkdirDir` creates it,
`rmdirDir` removes it, everything else leaves it alone. -/
def dirStep (d : DirLoc) (s : Bool) (e : Ev) : Bool :=
  match e with
  | .mkdirDir d' => if d' = d then true else s
  | .rmdirDir d' => if d' = d then false else s
  | _ => s

/-- Whether directory `d` exists once the trace has run (created by a
`mkdirDir`, destroyed by a `rmdirDir`; nothing existed beforehand). -/
def dirExistsAfter (d : DirLoc) (tr : List Ev) : Bool :=
  tr.foldl (dirStep d) false

/-- How many uploads the job would make if none failed. -/
def plannedUploads (env : Env) : Nat :=
  match env.fetch with
  | .error _ => 0
  | .ok obj =>
    match classify obj.name obj.content with
    | .archive =>
      match env.extract with
      | .error _ => 0
      | .ok ms => ms.length
    | .plain =>
      if chunkLimit < obj.content.length then
        (chunks chunkLimit obj.content).length
      else 1

/-- The member paths `extractall` writes and `os.walk` enumerates. -/
def memberPaths (ms : List MemberFile) : List (List String × String) :=
  ms.map (fun m => (m.dirs, m.name))

/-- No two extracted members share a path (otherwise `extractall`
overwrites and the walk sees fewer files than the archive had members). -/
def extractNodup (env : Env) : Bool :=
  match env.extract with
  | .error _ => true
  | .ok ms => decide (memberPaths ms).Nodup

/-! ### Progress monitor (`update_progress`, src/mega.py lines 132-146)

`file_size = os.path.getsize(file_path)` samples the size once, at
invocation; the loop then polls `os.path.exists` / `os.path.getsize`,
emits one percentage per iteration, breaks as soon as
`current_size >= file_size`, and otherwise sleeps one second.  The
observation oracle `sizes t` gives the file's size at the `t`-th
filesystem access (`none` = the path no longer exists); `sizes 0` is the
initial sample. -/

/-- `(current_size / file_size) * 100 if file_size > 0 else 0`. -/
def progressPct (fileSize cur : Nat) : ℚ :=
  if 0 < fileSize then (cur : ℚ) / (fileSize : ℚ) * 100 else 0

/-- The polling loop: returns the emitted percentages and the number of
`asyncio.sleep(1)` calls.  The fuel bounds the number of iterations so the
model is total; every claim below concerns runs that finish within it. -/
def progressLoop (sizes : Nat → Option Nat) (S : Nat) :
    Nat → Nat → List ℚ × Nat
  | 0, _ => ([], 0)
  | fuel + 1, t =>
    match sizes t with
    | none => ([], 0)
    | some cur =>
      if S ≤ cur then ([progressPct S cur], 0)
      else
        let r := progressLoop sizes S fuel (t + 1)
        (progressPct S cur :: r.1, r.2 + 1)

/-- `update_progress`: sample the expected size, then poll.  `none` models
the `getsize` call raising because the path is already gone. -/
def update_progress (sizes : Nat → Option Nat) (fuel : Nat) :
    Option (List ℚ × Nat) :=
  (sizes 0).map (fun S => progressLoop sizes S fuel 1)

/-! ### Concrete inputs used by counterexamples and witnesses -/

/-- A well-formed `file`-form link whose id is the word `folder`. -/
def linkFileFolderId : MegaLink :=
  { kind := .file, id := ['f', 'o', 'l', 'd', 'e', 'r'], key := none }

/-- A well-formed `folder`-form link. -/
def linkFolder : MegaLink :=
  { kind := .folder, id := ['a', 'b'], key := some ['k'] }

/-- A well-formed `file`-form link with an innocuous id. -/
def linkFile : MegaLink :=
  { kind := .file, id := ['a', 'b'], key := none }

/-- A small plain file; every upload succeeds. -/
def envPlainSmall : Env :=
  { fetch := .ok { name := "a.bin", content := [1, 2, 3] },
    extract := .ok [],
    uploadOk := fun _ => none }

/-- A zip archive with two flat members; every upload succeeds. -/
def envArchive : Env :=
  { fetch := .ok { name := "a.zip", content := [80, 75, 3, 4, 9] },
    extract := .ok [{ dirs := [], name := "m1" }, { dirs := [], name := "m2" }],
    uploadOk := fun _ => none }

/-- A zip archive whose single member sits in a subdirectory; every upload
succeeds. -/
def envArchiveSub : Env :=
  { fetch := .ok { name := "a.zip", content := [80, 75, 3, 4, 9] },
    extract := .ok [{ dirs := ["sub"], name := "m1" }],
    uploadOk := fun _ => none }

/-- The two-member archive, with the first upload (ordinal 0) raising
`"boom"`. -/
def envFail0 : Env :=
  { fetch := .ok { name := "a.zip", content := [80, 75, 3, 4, 9] },
    extract := .ok [{ dirs := [], name := "m1" }, { dirs := [], name := "m2" }],
    uploadOk := fun k => if k = 0 then some "boom" else none }

/-- The two-member archive, with the second upload (ordinal 1) raising
`"boom"`. -/
def envFail1 : Env :=
  { fetch := .ok { name := "a.zip", content := [80, 75, 3, 4, 9] },
    extract := .ok [{ dirs := [], name := "m1" }, { dirs := [], name := "m2" }],
    uploadOk := fun k => if k = 1 then some "boom" else none }

/-! ### Properties of the chunk splitter -/

theorem chunksAux_fuel_irrel (C : Nat) :
    ∀ fuel fuel' (l : List Nat), l.length ≤ fuel → l.length ≤ fuel' →
      chunksAux C fuel l = chunksAux C fuel' l := by
  intro fuel
  induction fuel with
  | zero =>
    intro fuel' l hl _
    have : l = [] := List.eq_nil_of_length_eq_zero (Nat.le_zero.mp hl)
    subst this
    cases fuel' <;> rfl
  | succ f ih =>
    intro fuel' l hl hl'
    cases l with
    | nil => cases fuel' <;> rfl
    | cons a t =>
      cases fuel' with
      | zero => simp at hl'
      | succ f' =>
        by_cases hC : C = 0
        · simp [chunksAux, hC]
        · have hpos : 0 < C := Nat.pos_of_ne_zero hC
          simp only [chunksAux, hC, if_false]
          have hd : ((a :: t).drop C).length ≤ f := by
            simp at hl ⊢
            omega
          have hd' : ((a :: t).drop C).length ≤ f' := by
            simp at hl' ⊢
            omega
          rw [ih f' _ hd hd']

theorem chunks_nil (C : Nat) : chunks C [] = [] := rfl

theorem chunks_eq_nil_of_zero (l : List Nat) : chunks 0 l = [] := by
  cases l <;> simp [chunks, chunksAux]

theorem chunks_cons (C : Nat) (l : List Nat) (hl : l ≠ []) (hC : C ≠ 0) :
    chunks C l = l.take C :: chunks C (l.drop C) := by
  cases l with
  | nil => exact absurd rfl hl
  | cons a t =>
    have hpos : 0 < C := Nat.pos_of_ne_zero hC
    show chunksAux C (t.length + 1) (a :: t) = _
    simp only [chunksAux, hC, if_false]
    congr 1
    apply chunksAux_fuel_irrel
    · simp; omega
    · exact le_rfl

/-- Concatenating the chunks in index order restores the file. -/
theorem chunks_join (C : Nat) (hC : 0 < C) :
    ∀ n (l : List Nat), l.length ≤ n → (chunks C l).flatten = l := by
  intro n
  induction n with
  | zero =>
    intro l hl
    have : l = [] := List.eq_nil_of_length_eq_zero (Nat.le_zero.mp hl)
    subst this; simp [chunks_nil]
  | succ n ih =>
    intro l hl
    by_cases h : l = []
    · subst h; simp [chunks_nil]
    · rw [chunks_cons C l h hC.ne']
      have hlen : 0 < l.length := List.length_pos.mpr h
      have hdrop : (l.drop C).length ≤ n := by
        simp [List.length_drop]; omega
      rw [List.flatten_cons, ih (l.drop C) hdrop, List.take_append_drop]

/-- The number of chunks is `ceil (S / C)`, written `(S + C - 1) / C`. -/
theorem chunks_length (C : Nat) (hC : 0 < C) :
    ∀ n (l : List Nat), l.length ≤ n →
      (chunks C l).length = (l.length + C - 1) / C := by
  intro n
  induction n with
  | zero =>
    intro l hl
    have : l = [] := List.eq_nil_of_length_eq_zero (Nat.le_zero.mp hl)
    subst this
    simp [chunks_nil, Nat.div_eq_of_lt (by omega : C - 1 < C)]
  | succ n ih =>
    intro l hl
    by_cases h : l = []
    · subst h
      simp [chunks_nil, Nat.div_eq_of_lt (by omega : C - 1 < C)]
    · rw [chunks_cons C l h hC.ne']
      have hlen : 0 < l.length := List.length_pos.mpr h
      have hdrop : (l.drop C).length ≤ n := by
        simp [List.length_drop]; omega
      rw [List.length_cons, ih (l.drop C) hdrop]
      simp only [List.length_drop]
      rcases le_or_lt l.length C with hle | hlt
      · have e1 : l.length - C = 0 := Nat.sub_eq_zero_of_le hle
        rw [e1]
        have : (0 + C - 1) / C = 0 := Nat.div_eq_of_lt (by omega)
        rw [this]
        have : l.length + C - 1 = (l.length - 1) + C := by omega
        rw [this, Nat.add_div_right _ hC]
        have : (l.length - 1) / C = 0 := Nat.div_eq_of_lt (by omega)
        omega
      · have e1 : l.length - C + C - 1 = (l.length - C - 1) + C := by omega
        have e2 : l.length + C - 1 = (l.length - 1) + C := by omega
        rw [e1, e2, Nat.add_div_right _ hC, Nat.add_div_right _ hC]
        have e3 : l.length - 1 = l.length - C - 1 + C := by omega
        rw [e3, Nat.add_div_right _ hC]

/-- Every chunk except the last has length exactly `C`. -/
theorem chunks_dropLast_length (C : Nat) (hC : 0 < C) :
    ∀ n (l : List Nat), l.length ≤ n →
      ∀ c ∈ (chunks C l).dropLast, c.length = C := by
  intro n
  induction n with
  | zero =>
    intro l hl
    have : l = [] := List.eq_nil_of_length_eq_zero (Nat.le_zero.mp hl)
    subst this; simp [chunks_nil]
  | succ n ih =>
    intro l hl c hc
    by_cases h : l = []
    · subst h; simp [chunks_nil] at hc
    · rw [chunks_cons C l h hC.ne'] at hc
      have hlen : 0 < l.length := List.length_pos.mpr h
      by_cases hd : l.drop C = []
      · rw [hd, chunks_nil] at hc
        simp at hc
      · have hne : chunks C (l.drop C) ≠ [] := by
          rw [chunks_cons C _ hd hC.ne']
          exact List.cons_ne_nil _ _
        rw [List.dropLast_cons_of_ne_nil hne] at hc
        rcases List.mem_cons.mp hc with h1 | h1
        · subst h1
          have : C ≤ l.length := by
            by_contra hcon
            push_neg at hcon
            exact hd (List.drop_eq_nil_of_le (Nat.le_of_lt hcon))
          simp [List.length_take]
          omega
        · have hdrop : (l.drop C).length ≤ n := by
            simp [List.length_drop]; omega
          exact ih (l.drop C) hdrop c h1

/-- **C1**: splitting a file of size `S` with chunk limit `C` and
concatenating the chunk payloads in index order restores the original
byte sequence; the number of chunks is `ceil (S / C)`; and every chunk
except the last has length exactly `C`. -/
theorem c1_split_roundtrip (C : Nat) (l : List Nat) (hC : 0 < C) :
    (chunks C l).flatten = l ∧
    (chunks C l).length = (l.length + C - 1) / C ∧
    ∀ c ∈ (chunks C l).dropLast, c.length = C :=
  ⟨chunks_join C hC l.length l le_rfl,
   chunks_length C hC l.length l le_rfl,
   chunks_dropLast_length C hC l.length l le_rfl⟩

/-- Witness for **C1** at `C = 2`, file `[7, 8, 9]`. -/
theorem c1_split_roundtrip_witness :
    0 < 2 ∧
    ((chunks 2 [7, 8, 9]).flatten = [7, 8, 9] ∧
     (chunks 2 [7, 8, 9]).length = (3 + 2 - 1) / 2 ∧
     ∀ c ∈ (chunks 2 [7, 8, 9]).dropLast, c.length = 2) :=
  ⟨by decide, c1_split_roundtrip 2 [7, 8, 9] (by decide)⟩

/-- **C3, counterexample**: the claim says each caption's `totalParts` is the
number of chunks actually produced, i.e. `ceil (S / C)`.  The code computes
it as `file_size // chunk_size + 1`, which overcounts by one whenever `C`
divides `S`: with `C = 1` and a 2-byte file the two chunks are captioned
"Part 1/3" and "Part 2/3". -/
theorem c3_caption_counterexample :
    ¬ (∀ (C : Nat) (path : String) (content : List Nat), 0 < C →
        split_and_upload C path content = claimedUploads C path content) := by
  intro h
  have h1 := h 1 "f" [0, 0] (by decide)
  have h2 : split_and_upload 1 "f" [0, 0] ≠ claimedUploads 1 "f" [0, 0] := by
    decide
  exact h2 h1

/-- **C3, amended**: chunk files are named `<file_path>.part<index>` and the
caption of chunk `i` is `"Part {i+1}/{S // C + 1} of {basename}"` with the
displayed total computed by floor division; one upload is made per chunk
(`ceil (S / C)` of them), and the displayed total equals the number of
chunks actually produced whenever `C` does not divide `S` — in particular
for a 4.5 GB file with `C = 2 GiB` (3 uploads captioned "Part 1/3",
"Part 2/3", "Part 3/3" in that order), but not when `C` divides `S`. -/
theorem c3_caption_amended (C : Nat) (path : String) (content : List Nat)
    (hC : 0 < C) :
    (split_and_upload C path content).length = (content.length + C - 1) / C ∧
    (∀ i, i < (chunks C content).length →
      (split_and_upload C path content)[i]? =
        some (partPath path i, partCaption content.length C (basename path) i)) ∧
    (¬ C ∣ content.length →
      content.length / C + 1 = (chunks C content).length) := by
  refine ⟨?_, ?_, ?_⟩
  · simp [split_and_upload, chunks_length C hC content.length content le_rfl]
  · intro i hi
    simp [split_and_upload, List.getElem?_map, List.getElem?_range, hi]
  · intro hnd
    rw [chunks_length C hC content.length content le_rfl]
    have hq := Nat.div_add_mod content.length C
    have hr : content.length % C ≠ 0 := fun h => hnd (Nat.dvd_of_mod_eq_zero h)
    have hrlt : content.length % C < C := Nat.mod_lt _ hC
    have h1 : content.length + C - 1 =
        C * (content.length / C + 1) + (content.length % C - 1) := by
      rw [Nat.mul_add, Nat.mul_one]
      omega
    rw [h1, Nat.mul_add_div hC]
    have h2 : (content.length % C - 1) / C = 0 := Nat.div_eq_of_lt (by omega)
    omega

/-- Witness for **C3, amended** at scenario B's sizes: a 4 500 000 000-byte
file split with `C = 2 GiB = 2147483648`. -/
theorem c3_caption_amended_witness :
    0 < 2147483648 ∧
    ((split_and_upload 2147483648 "downloads/movie.mkv"
        (List.replicate 4500000000 0)).length =
      ((List.replicate 4500000000 (0 : Nat)).length + 2147483648 - 1) /
        2147483648 ∧
     (∀ i, i < (chunks 2147483648 (List.replicate 4500000000 0)).length →
       (split_and_upload 2147483648 "downloads/movie.mkv"
          (List.replicate 4500000000 0))[i]? =
         some (partPath "downloads/movie.mkv" i,
               partCaption (List.replicate 4500000000 (0 : Nat)).length
                 2147483648 (basename "downloads/movie.mkv") i)) ∧
     (¬ (2147483648 : Nat) ∣ (List.replicate 4500000000 (0 : Nat)).length →
       (List.replicate 4500000000 (0 : Nat)).length / 2147483648 + 1 =
         (chunks 2147483648 (List.replicate 4500000000 0)).length)) :=
  ⟨by decide,
   c3_caption_amended 2147483648 "downloads/movie.mkv"
     (List.replicate 4500000000 0) (by decide)⟩

/-! ### Properties of the substring guard -/

/-- A separator character absent from `sub` cuts off an `isPref` match. -/
theorem isPref_sep (sep : Char) :
    ∀ (sub : List Char), sep ∉ sub → ∀ (y b : List Char),
      isPref sub (y ++ sep :: b) = isPref sub y := by
  intro sub
  induction sub with
  | nil => intro _ y b; rfl
  | cons c cs ih =>
    intro hsep y b
    have hc : (c == sep) = false := by
      simp only [beq_eq_false_iff_ne, ne_eq]
      intro h
      exact hsep (by simp [h])
    have hcs : sep ∉ cs := fun h => hsep (List.mem_cons_of_mem _ h)
    cases y with
    | nil => simp [isPref, hc]
    | cons d ys => simp [isPref, ih hcs ys b]

/-- Occurrences of `sub` cannot straddle a separator character that `sub`
does not contain, so the substring test distributes over it. -/
theorem pyIn_sep (sep : Char) (sub : List Char) (hsep : sep ∉ sub) :
    ∀ (a b : List Char),
      pyIn sub (a ++ sep :: b) = (pyIn sub a || pyIn sub b) := by
  intro a
  induction a with
  | nil =>
    intro b
    have h1 : isPref sub (sep :: b) = isPref sub [] := isPref_sep sep sub hsep [] b
    simp [pyIn, h1]
  | cons x xs ih =>
    intro b
    have h1 : isPref sub ((x :: xs) ++ sep :: b) = isPref sub (x :: xs) :=
      isPref_sep sep sub hsep (x :: xs) b
    simp only [List.cons_append] at h1 ⊢
    simp [pyIn, h1, ih b, Bool.or_assoc]

/-- Characterization of the guard: `"folder"` contains no `/` or `#`, so an
occurrence in the matched text lies wholly inside one separator-free
segment; the fixed segments `https:`, `mega.nz` and `file` never contain
it, while the segment `folder` always does. -/
theorem rejectsAsFolder_iff (l : MegaLink) :
    rejectsAsFolder l = true ↔
      (l.kind = .folder ∨ pyIn folderChars l.id = true ∨
        (∃ k, l.key = some k ∧ pyIn folderChars k = true)) := by
  have hsl : '/' ∉ folderChars := by decide
  have hsh : '#' ∉ folderChars := by decide
  have key2 : ∀ s, pyIn folderChars ('/' :: s) = pyIn folderChars s := by
    intro s
    have h := pyIn_sep '/' folderChars hsl [] s
    simpa using h
  have key1 : ∀ s, pyIn folderChars (['h', 't', 't', 'p', 's', ':'] ++ '/' :: s) =
      pyIn folderChars s := by
    intro s
    rw [pyIn_sep '/' folderChars hsl]
    simp [show pyIn folderChars ['h', 't', 't', 'p', 's', ':'] = false from by decide]
  have key3 : ∀ s, pyIn folderChars (['m', 'e', 'g', 'a', '.', 'n', 'z'] ++ '/' :: s) =
      pyIn folderChars s := by
    intro s
    rw [pyIn_sep '/' folderChars hsl]
    simp [show pyIn folderChars ['m', 'e', 'g', 'a', '.', 'n', 'z'] = false from by decide]
  have key4f : ∀ s, pyIn folderChars (kindChars .file ++ '/' :: s) =
      pyIn folderChars s := by
    intro s
    rw [pyIn_sep '/' folderChars hsl]
    simp [show pyIn folderChars (kindChars .file) = false from by decide]
  have key4d : ∀ s, pyIn folderChars (kindChars .folder ++ '/' :: s) = true := by
    intro s
    rw [pyIn_sep '/' folderChars hsl]
    simp [show pyIn folderChars (kindChars .folder) = true from by decide]
  cases hk : l.kind with
  | folder =>
    simp only [rejectsAsFolder, renderLink, hk, key1, key2, key3, key4d]
    simp
  | file =>
    simp only [rejectsAsFolder, renderLink, hk, key1, key2, key3, key4f]
    cases hkey : l.key with
    | none =>
      simp only [keyChars, List.append_nil]
      simp
    | some k =>
      simp only [keyChars, pyIn_sep '#' folderChars hsh]
      simp [Bool.or_eq_true]

/-! ### Helper lemmas about traces and the upload loops -/

@[simp] theorem sendsOf_nil : sendsOf [] = [] := rfl

@[simp] theorem sendsOf_cons_send (p : Loc) (c : String) (tl : List Ev) :
    sendsOf (Ev.send p c :: tl) = (p, c) :: sendsOf tl := rfl

@[simp] theorem sendsOf_cons_mkdirDir (d : DirLoc) (tl : List Ev) :
    sendsOf (Ev.mkdirDir d :: tl) = sendsOf tl := rfl

@[simp] theorem sendsOf_cons_fetchStart (tl : List Ev) :
    sendsOf (Ev.fetchStart :: tl) = sendsOf tl := rfl

@[simp] theorem sendsOf_cons_fetched (n : String) (tl : List Ev) :
    sendsOf (Ev.fetched n :: tl) = sendsOf tl := rfl

@[simp] theorem sendsOf_cons_removeFile (p : Loc) (tl : List Ev) :
    sendsOf (Ev.removeFile p :: tl) = sendsOf tl := rfl

@[simp] theorem sendsOf_cons_rmdirDir (d : DirLoc) (tl : List Ev) :
    sendsOf (Ev.rmdirDir d :: tl) = sendsOf tl := rfl

@[simp] theorem sendsOf_cons_split (tl : List Ev) :
    sendsOf (Ev.split :: tl) = sendsOf tl := rfl

@[simp] theorem sendsOf_append (a b : List Ev) :
    sendsOf (a ++ b) = sendsOf a ++ sendsOf b := by
  simp [sendsOf, List.filterMap_append]

theorem memberLoop_all_ok (upOk : Nat → Option String) :
    ∀ (ms : List MemberFile) (k : Nat),
      (∀ j, j < ms.length → upOk (k + j) = none) →
      (memberLoop upOk k ms).2 = none ∧
      (sendsOf (memberLoop upOk k ms).1).length = ms.length := by
  intro ms
  induction ms with
  | nil => intro k _; exact ⟨rfl, rfl⟩
  | cons m ms ih =>
    intro k h
    have h0 : upOk k = none := by simpa using h 0 (by simp)
    have hs : ∀ j, j < ms.length → upOk (k + 1 + j) = none := by
      intro j hj
      have := h (j + 1) (by simp; omega)
      simpa [Nat.add_comm, Nat.add_assoc, Nat.add_left_comm] using this
    obtain ⟨h1, h2⟩ := ih (k + 1) hs
    simp only [memberLoop, h0]
    exact ⟨h1, by simp [h2]⟩

theorem memberLoop_fail_at (upOk : Nat → Option String) :
    ∀ (ms : List MemberFile) (k j : Nat) (e : String), j < ms.length →
      (∀ i, i < j → upOk (k + i) = none) → upOk (k + j) = some e →
      (memberLoop upOk k ms).2 = some e ∧
      (sendsOf (memberLoop upOk k ms).1).length = j + 1 := by
  intro ms
  induction ms with
  | nil => intro k j e hj _ _; simp at hj
  | cons m ms ih =>
    intro k j e hj hok hfail
    cases j with
    | zero =>
      have h0 : upOk k = some e := by simpa using hfail
      simp [memberLoop, h0]
    | succ j' =>
      have h0 : upOk k = none := by simpa using hok 0 (Nat.succ_pos j')
      have hok' : ∀ i, i < j' → upOk (k + 1 + i) = none := by
        intro i hi
        have := hok (i + 1) (by omega)
        simpa [Nat.add_comm, Nat.add_assoc, Nat.add_left_comm] using this
      have hfail' : upOk (k + 1 + j') = some e := by
        have : k + (j' + 1) = k + 1 + j' := by omega
        rw [this] at hfail
        exact hfail
      have hj' : j' < ms.length := by simpa using hj
      obtain ⟨h1, h2⟩ := ih (k + 1) j' e hj' hok' hfail'
      simp only [memberLoop, h0]
      exact ⟨h1, by simp [h2]⟩

theorem memberLoop_events (upOk : Nat → Option String) :
    ∀ (ms : List MemberFile) (k : Nat) (e : Ev),
      e ∈ (memberLoop upOk k ms).1 →
      (∃ d n c, e = Ev.send (.member d n) c) ∨
      (∃ d n, e = Ev.removeFile (.member d n)) := by
  intro ms
  induction ms with
  | nil => intro k e he; simp [memberLoop] at he
  | cons m ms ih =>
    intro k e he
    cases h0 : upOk k with
    | some err =>
      simp only [memberLoop, h0] at he
      simp only [List.mem_singleton] at he
      exact Or.inl ⟨m.dirs, m.name, _, he⟩
    | none =>
      simp only [memberLoop, h0] at he
      rcases List.mem_cons.mp he with h1 | h1
      · exact Or.inl ⟨m.dirs, m.name, _, h1⟩
      rcases List.mem_cons.mp h1 with h2 | h2
      · exact Or.inr ⟨m.dirs, m.name, h2⟩
      · exact ih (k + 1) e h2

theorem memberLoop_adjacent (upOk : Nat → Option String) :
    ∀ (ms : List MemberFile) (k : Nat) (d : List String) (n : String),
      Ev.removeFile (.member d n) ∈ (memberLoop upOk k ms).1 →
      ∃ a b, (memberLoop upOk k ms).1 =
        a ++ Ev.send (.member d n) ("Extracted file: " ++ n) ::
          Ev.removeFile (.member d n) :: b := by
  intro ms
  induction ms with
  | nil => intro k d n h; simp [memberLoop] at h
  | cons m ms ih =>
    intro k d n h
    cases h0 : upOk k with
    | some err =>
      simp only [memberLoop, h0] at h
      simp at h
    | none =>
      simp only [memberLoop, h0] at h ⊢
      rcases List.mem_cons.mp h with h1 | h1
      · simp at h1
      · rcases List.mem_cons.mp h1 with h2 | h2
        · simp only [Ev.removeFile.injEq, Loc.member.injEq] at h2
          obtain ⟨hd, hn⟩ := h2
          subst hd; subst hn
          exact ⟨[], (memberLoop upOk (k + 1) ms).1, by simp⟩
        · obtain ⟨a, b, hab⟩ := ih (k + 1) d n h2
          refine ⟨Ev.send (.member m.dirs m.name) ("Extracted file: " ++ m.name) ::
            Ev.removeFile (.member m.dirs m.name) :: a, b, ?_⟩
          simp [hab]

theorem chunkLoop_fail_at (upOk : Nat → Option String) (base : String) (S : Nat) :
    ∀ (cs : List (List Nat)) (k j : Nat) (e : String), j < cs.length →
      (∀ i, i < j → upOk (k + i) = none) → upOk (k + j) = some e →
      (chunkLoop upOk base S k cs).2 = some e ∧
      (sendsOf (chunkLoop upOk base S k cs).1).length = j + 1 := by
  intro cs
  induction cs with
  | nil => intro k j e hj _ _; simp at hj
  | cons c cs ih =>
    intro k j e hj hok hfail
    cases j with
    | zero =>
      have h0 : upOk k = some e := by simpa using hfail
      simp [chunkLoop, h0]
    | succ j' =>
      have h0 : upOk k = none := by simpa using hok 0 (Nat.succ_pos j')
      have hok' : ∀ i, i < j' → upOk (k + 1 + i) = none := by
        intro i hi
        have := hok (i + 1) (by omega)
        simpa [Nat.add_comm, Nat.add_assoc, Nat.add_left_comm] using this
      have hfail' : upOk (k + 1 + j') = some e := by
        have : k + (j' + 1) = k + 1 + j' := by omega
        rw [this] at hfail
        exact hfail
      have hj' : j' < cs.length := by simpa using hj
      obtain ⟨h1, h2⟩ := ih (k + 1) j' e hj' hok' hfail'
      simp only [chunkLoop, h0]
      exact ⟨h1, by simp [h2]⟩

theorem chunkLoop_events (upOk : Nat → Option String) (base : String) (S : Nat) :
    ∀ (cs : List (List Nat)) (k : Nat) (e : Ev),
      e ∈ (chunkLoop upOk base S k cs).1 →
      (∃ i c, e = Ev.send (.chunkFile base i) c) ∨
      (∃ i, e = Ev.removeFile (.chunkFile base i)) := by
  intro cs
  induction cs with
  | nil => intro k e he; simp [chunkLoop] at he
  | cons c cs ih =>
    intro k e he
    cases h0 : upOk k with
    | some err =>
      simp only [chunkLoop, h0] at he
      simp only [List.mem_singleton] at he
      exact Or.inl ⟨k, _, he⟩
    | none =>
      simp only [chunkLoop, h0] at he
      rcases List.mem_cons.mp he with h1 | h1
      · exact Or.inl ⟨k, _, h1⟩
      rcases List.mem_cons.mp h1 with h2 | h2
      · exact Or.inr ⟨k, h2⟩
      · exact ih (k + 1) e h2

theorem dirStep_foldl_true (d : DirLoc) :
    ∀ tr : List Ev, (∀ e ∈ tr, e ≠ Ev.rmdirDir d) →
      tr.foldl (dirStep d) true = true := by
  intro tr
  induction tr with
  | nil => intro _; rfl
  | cons e tl ih =>
    intro h
    have he : e ≠ Ev.rmdirDir d := h e (by simp)
    have htl : ∀ x ∈ tl, x ≠ Ev.rmdirDir d := fun x hx => h x (by simp [hx])
    rw [List.foldl_cons]
    have hstep : dirStep d true e = true := by
      cases e with
      | mkdirDir d' => simp [dirStep]
      | rmdirDir d' =>
        have hne : d' ≠ d := fun hh => he (by rw [hh])
        simp [dirStep, hne]
      | fetchStart => rfl
      | fetched _ => rfl
      | send _ _ => rfl
      | removeFile _ => rfl
      | split => rfl
    rw [hstep]
    exact ih htl

/-- Every run of the pipeline first creates `downloads/` and then starts
the fetch; no later event removes `downloads/`; and the job ends
`completed` or `failed`, never `unsupported`. -/
theorem processJob_shape (env : Env) :
    ∃ rest, (processJob env).trace =
        Ev.mkdirDir .downloads :: Ev.fetchStart :: rest ∧
      (∀ e ∈ rest, e ≠ Ev.rmdirDir DirLoc.downloads) ∧
      (processJob env).status ≠ .unsupported := by
  cases hf : env.fetch with
  | error e =>
    refine ⟨[], ?_, ?_, ?_⟩
    · simp [processJob, hf]
    · simp
    · simp [processJob, hf]
  | ok obj =>
    cases hc : classify obj.name obj.content with
    | archive =>
      cases hx : env.extract with
      | error e =>
        refine ⟨[Ev.fetched obj.name, Ev.mkdirDir .extracted], ?_, ?_, ?_⟩
        · simp [processJob, hf, hc, hx]
        · simp
        · simp [processJob, hf, hc, hx]
      | ok ms =>
        have hev : ∀ x ∈ (memberLoop env.uploadOk 0 ms).1,
            x ≠ Ev.rmdirDir DirLoc.downloads := by
          intro x hx'
          rcases memberLoop_events env.uploadOk ms 0 x hx' with
            ⟨d, n, c, rfl⟩ | ⟨d, n, rfl⟩ <;> simp
        cases hr : (memberLoop env.uploadOk 0 ms).2 with
        | some e =>
          refine ⟨[Ev.fetched obj.name, Ev.mkdirDir .extracted,
              Ev.removeFile (.staged obj.name)] ++ (memberLoop env.uploadOk 0 ms).1,
            ?_, ?_, ?_⟩
          · simp [processJob, hf, hc, hx, hr]
          · intro x hx'
            rcases List.mem_append.mp hx' with h1 | h1
            · simp only [List.mem_cons, List.mem_singleton] at h1
              rcases h1 with rfl | rfl | rfl | h1 <;> simp at *
            · exact hev x h1
          · simp [processJob, hf, hc, hx, hr]
        | none =>
          by_cases hsub : extractedSubdirs ms = []
          · refine ⟨[Ev.fetched obj.name, Ev.mkdirDir .extracted,
                Ev.removeFile (.staged obj.name)] ++ (memberLoop env.uploadOk 0 ms).1 ++
                [Ev.rmdirDir .extracted], ?_, ?_, ?_⟩
            · simp [processJob, hf, hc, hx, hr, hsub]
            · intro x hx'
              rcases List.mem_append.mp hx' with h1 | h1
              · rcases List.mem_append.mp h1 with h2 | h2
                · simp only [List.mem_cons, List.mem_singleton] at h2
                  rcases h2 with rfl | rfl | rfl | h2 <;> simp at *
                · exact hev x h2
              · simp only [List.mem_singleton] at h1
                subst h1
                simp
            · simp [processJob, hf, hc, hx, hr, hsub]
          · refine ⟨[Ev.fetched obj.name, Ev.mkdirDir .extracted,
                Ev.removeFile (.staged obj.name)] ++ (memberLoop env.uploadOk 0 ms).1,
              ?_, ?_, ?_⟩
            · simp [processJob, hf, hc, hx, hr, hsub]
            · intro x hx'
              rcases List.mem_append.mp hx' with h1 | h1
              · simp only [List.mem_cons, List.mem_singleton] at h1
                rcases h1 with rfl | rfl | rfl | h1 <;> simp at *
              · exact hev x h1
            · simp [processJob, hf, hc, hx, hr, hsub]
    | plain =>
      by_cases hbig : chunkLimit < obj.content.length
      · have hev : ∀ x ∈ (chunkLoop env.uploadOk obj.name obj.content.length 0
            (chunks chunkLimit obj.content)).1, x ≠ Ev.rmdirDir DirLoc.downloads := by
          intro x hx'
          rcases chunkLoop_events env.uploadOk obj.name obj.content.length
            (chunks chunkLimit obj.content) 0 x hx' with
            ⟨i, c, rfl⟩ | ⟨i, rfl⟩ <;> simp
        cases hr : (chunkLoop env.uploadOk obj.name obj.content.length 0
            (chunks chunkLimit obj.content)).2 with
        | some e =>
          refine ⟨Ev.fetched obj.name :: Ev.split ::
              (chunkLoop env.uploadOk obj.name obj.content.length 0
                (chunks chunkLimit obj.content)).1, ?_, ?_, ?_⟩
          · simp [processJob, hf, hc, hbig, hr]
          · intro x hx'
            rcases List.mem_cons.mp hx' with rfl | h1
            · simp
            rcases List.mem_cons.mp h1 with rfl | h2
            · simp
            · exact hev x h2
          · simp [processJob, hf, hc, hbig, hr]
        | none =>
          refine ⟨Ev.fetched obj.name :: Ev.split ::
              (chunkLoop env.uploadOk obj.name obj.content.length 0
                (chunks chunkLimit obj.content)).1, ?_, ?_, ?_⟩
          · simp [processJob, hf, hc, hbig, hr]
          · intro x hx'
            rcases List.mem_cons.mp hx' with rfl | h1
            · simp
            rcases List.mem_cons.mp h1 with rfl | h2
            · simp
            · exact hev x h2
          · simp [processJob, hf, hc, hbig, hr]
      · cases hu : env.uploadOk 0 with
        | some e =>
          refine ⟨[Ev.fetched obj.name, Ev.send (.staged obj.name) heartCaption],
            ?_, ?_, ?_⟩
          · simp [processJob, hf, hc, hbig, hu]
          · simp
          · simp [processJob, hf, hc, hbig, hu]
        | none =>
          refine ⟨[Ev.fetched obj.name, Ev.send (.staged obj.name) heartCaption,
              Ev.removeFile (.staged obj.name)], ?_, ?_, ?_⟩
          · simp [processJob, hf, hc, hbig, hu]
          · simp
          · simp [processJob, hf, hc, hbig, hu]

/-- **C2, counterexample**: the claim says a job's staging directory does
not exist once the job is `Completed` or `Failed`.  A successful small
plain-file job completes, yet `downloads/` still exists: the code never
removes it. -/
theorem c2_cleanup_counterexample :
    (download_file linkFile envPlainSmall).status = .completed ∧
    dirExistsAfter .downloads (download_file linkFile envPlainSmall).trace
      = true := by
  decide

/-- **C2, amended**: the staging directory `downloads/` is created at job
start and is never removed on any exit path — after the job ends
(`Completed` or `Failed`) the directory still exists; only individual
files are removed along the way. -/
theorem c2_cleanup_amended (link : MegaLink) (env : Env)
    (h : (download_file link env).status ≠ .unsupported) :
    dirExistsAfter .downloads (download_file link env).trace = true := by
  by_cases hrej : rejectsAsFolder link = true
  · exact absurd (by simp [download_file, hrej]) h
  · obtain ⟨rest, htr, hnone, _⟩ := processJob_shape env
    have htr' : (download_file link env).trace = (processJob env).trace := by
      simp [download_file, hrej]
    rw [htr', htr]
    show (Ev.mkdirDir .downloads :: Ev.fetchStart :: rest).foldl
      (dirStep .downloads) false = true
    rw [List.foldl_cons, List.foldl_cons]
    have h1 : dirStep .downloads false (Ev.mkdirDir .downloads) = true := by
      simp [dirStep]
    have h2 : dirStep .downloads true Ev.fetchStart = true := rfl
    rw [h1, h2]
    exact dirStep_foldl_true .downloads rest hnone

/-- Witness for **C2, amended** on the completed small-file job. -/
theorem c2_cleanup_amended_witness :
    (download_file linkFile envPlainSmall).status ≠ .unsupported ∧
    dirExistsAfter .downloads (download_file linkFile envPlainSmall).trace
      = true :=
  ⟨by decide, c2_cleanup_amended linkFile envPlainSmall (by decide)⟩

/-- **C4, counterexample**: the claim says a link is rejected as
unsupported iff it is of the folder form.  The guard is the substring test
`"folder" in mega_link`, so the well-formed file-form link
`https://mega.nz/file/folder` is also rejected. -/
theorem c4_folder_counterexample :
    wfLink linkFileFolderId = true ∧
    linkFileFolderId.kind = LinkKind.file ∧
    (download_file linkFileFolderId envPlainSmall).status = .unsupported := by
  decide

/-- **C4, amended**: a matched link is rejected as unsupported iff its text
contains the substring `"folder"`, i.e. iff it is folder-form or its id or
key contains `"folder"`; rejection happens before any staging or fetch
(empty trace), and every non-rejected link proceeds to staging and the
fetch stage. -/
theorem c4_folder_amended (link : MegaLink) (env : Env)
    (_hwf : wfLink link = true) :
    ((download_file link env).status = .unsupported ↔
      (link.kind = .folder ∨ pyIn folderChars link.id = true ∨
        (∃ k, link.key = some k ∧ pyIn folderChars k = true))) ∧
    ((download_file link env).status = .unsupported →
      (download_file link env).trace = []) ∧
    ((download_file link env).status ≠ .unsupported →
      (download_file link env).trace.take 2 =
        [Ev.mkdirDir .downloads, Ev.fetchStart]) := by
  obtain ⟨rest, htr, _, hstat⟩ := processJob_shape env
  have hiff := rejectsAsFolder_iff link
  by_cases hrej : rejectsAsFolder link = true
  · have hR := hiff.mp hrej
    refine ⟨?_, ?_, ?_⟩
    · simp [download_file, hrej, hR]
    · intro _
      simp [download_file, hrej]
    · intro hne
      exact absurd (by simp [download_file, hrej]) hne
  · have hR : ¬ (link.kind = .folder ∨ pyIn folderChars link.id = true ∨
        (∃ k, link.key = some k ∧ pyIn folderChars k = true)) :=
      fun h => hrej (hiff.mpr h)
    have hs : (download_file link env).status = (processJob env).status := by
      simp [download_file, hrej]
    have ht : (download_file link env).trace = (processJob env).trace := by
      simp [download_file, hrej]
    refine ⟨?_, ?_, ?_⟩
    · rw [hs]
      exact ⟨fun h => absurd h hstat, fun h => absurd h hR⟩
    · intro h
      rw [hs] at h
      exact absurd h hstat
    · intro _
      rw [ht, htr]
      rfl

/-- Witness for **C4, amended** on a folder-form link. -/
theorem c4_folder_amended_witness :
    wfLink linkFolder = true ∧
    ((download_file linkFolder envPlainSmall).status = .unsupported ↔
      (linkFolder.kind = .folder ∨ pyIn folderChars linkFolder.id = true ∨
        (∃ k, linkFolder.key = some k ∧ pyIn folderChars k = true))) :=
  ⟨by decide, (c4_folder_amended linkFolder envPlainSmall (by decide)).1⟩

/-- **C5**: for a fetched object classified as a plain file, the chunk
splitter is invoked iff the size strictly exceeds 2 GiB; otherwise exactly
one upload call is made, captioned "❤️ Created by @NT_BOT_CHANNEL", and
the file is deleted right after that upload succeeds. -/
theorem c5_plain_threshold (env : Env) (obj : FetchedObject)
    (hf : env.fetch = .ok obj) (hz : is_zipfile obj.content = false) :
    ((Ev.split ∈ (processJob env).trace) ↔ chunkLimit < obj.content.length) ∧
    (obj.content.length ≤ chunkLimit →
      sendsOf (processJob env).trace = [(.staged obj.name, heartCaption)] ∧
      (env.uploadOk 0 = none →
        ∃ a, (processJob env).trace =
          a ++ [Ev.send (.staged obj.name) heartCaption,
                Ev.removeFile (.staged obj.name)])) := by
  have hc : classify obj.name obj.content = .plain := by simp [classify, hz]
  by_cases hbig : chunkLimit < obj.content.length
  · cases hr : (chunkLoop env.uploadOk obj.name obj.content.length 0
        (chunks chunkLimit obj.content)).2 with
    | some e =>
      refine ⟨by simp [processJob, hf, hc, hbig, hr], fun hle => absurd hbig (by omega)⟩
    | none =>
      refine ⟨by simp [processJob, hf, hc, hbig, hr], fun hle => absurd hbig (by omega)⟩
  · cases hu : env.uploadOk 0 with
    | some e =>
      refine ⟨by simp [processJob, hf, hc, hbig, hu], fun _ => ⟨?_, ?_⟩⟩
      · simp [processJob, hf, hc, hbig, hu]
      · intro h
        simp [hu] at h
    | none =>
      refine ⟨by simp [processJob, hf, hc, hbig, hu], fun _ => ⟨?_, ?_⟩⟩
      · simp [processJob, hf, hc, hbig, hu]
      · intro _
        refine ⟨[Ev.mkdirDir .downloads, Ev.fetchStart, Ev.fetched obj.name], ?_⟩
        simp [processJob, hf, hc, hbig, hu]

/-- Witness for **C5** on the 3-byte plain file. -/
theorem c5_plain_threshold_witness :
    envPlainSmall.fetch = .ok { name := "a.bin", content := [1, 2, 3] } ∧
    is_zipfile [1, 2, 3] = false ∧
    ((Ev.split ∈ (processJob envPlainSmall).trace) ↔
      chunkLimit < ([1, 2, 3] : List Nat).length) :=
  ⟨rfl, by decide,
   (c5_plain_threshold envPlainSmall { name := "a.bin", content := [1, 2, 3] }
     rfl (by decide)).1⟩

/-- **C6**: the archive file is removed from staging iff expansion finished
without error; the removal happens before any member upload; and every
member removal immediately follows that member's own (successful)
upload. -/
theorem c6_archive_atomicity (env : Env) (obj : FetchedObject)
    (hf : env.fetch = .ok obj) (hz : is_zipfile obj.content = true) :
    (∀ e, env.extract = .error e →
      Ev.removeFile (.staged obj.name) ∉ (processJob env).trace) ∧
    (∀ ms, env.extract = .ok ms →
      Ev.removeFile (.staged obj.name) ∈
        (processJob env).trace.takeWhile notSend) ∧
    (∀ ms, env.extract = .ok ms → ∀ d n,
      Ev.removeFile (.member d n) ∈ (processJob env).trace →
      ∃ a b, (processJob env).trace =
        a ++ Ev.send (.member d n) ("Extracted file: " ++ n) ::
          Ev.removeFile (.member d n) :: b) := by
  have hc : classify obj.name obj.content = .archive := by simp [classify, hz]
  refine ⟨?_, ?_, ?_⟩
  · intro e hx
    simp [processJob, hf, hc, hx]
  · intro ms hx
    cases hr : (memberLoop env.uploadOk 0 ms).2 with
    | some e =>
      simp [processJob, hf, hc, hx, hr, List.takeWhile_cons, notSend]
    | none =>
      by_cases hsub : extractedSubdirs ms = [] <;>
        simp [processJob, hf, hc, hx, hr, hsub, List.takeWhile_cons, notSend]
  · intro ms hx d n hmem
    have hshape : ∃ tail, (processJob env).trace =
        Ev.mkdirDir .downloads :: Ev.fetchStart :: Ev.fetched obj.name ::
          Ev.mkdirDir .extracted :: Ev.removeFile (.staged obj.name) ::
          ((memberLoop env.uploadOk 0 ms).1 ++ tail) ∧
        Ev.removeFile (.member d n) ∉ tail := by
      cases hr : (memberLoop env.uploadOk 0 ms).2 with
      | some e =>
        exact ⟨[], by simp [processJob, hf, hc, hx, hr], by simp⟩
      | none =>
        by_cases hsub : extractedSubdirs ms = []
        · exact ⟨[Ev.rmdirDir .extracted],
            by simp [processJob, hf, hc, hx, hr, hsub], by simp⟩
        · exact ⟨[], by simp [processJob, hf, hc, hx, hr, hsub], by simp⟩
    obtain ⟨tail, htr, htail⟩ := hshape
    rw [htr] at hmem ⊢
    have hin : Ev.removeFile (.member d n) ∈ (memberLoop env.uploadOk 0 ms).1 := by
      simp only [List.mem_cons, List.mem_append] at hmem
      rcases hmem with h | h | h | h | h | h | h
      · exact absurd h (by simp)
      · exact absurd h (by simp)
      · exact absurd h (by simp)
      · exact absurd h (by simp)
      · exact absurd h (by simp)
      · exact h
      · exact absurd h htail
    obtain ⟨a, b, hab⟩ := memberLoop_adjacent env.uploadOk ms 0 d n hin
    refine ⟨Ev.mkdirDir .downloads :: Ev.fetchStart :: Ev.fetched obj.name ::
      Ev.mkdirDir .extracted :: Ev.removeFile (.staged obj.name) :: a,
      b ++ tail, ?_⟩
    rw [hab]
    simp

/-- Witness for **C6** on the flat two-member archive. -/
theorem c6_archive_atomicity_witness :
    envArchive.fetch = .ok { name := "a.zip", content := [80, 75, 3, 4, 9] } ∧
    is_zipfile [80, 75, 3, 4, 9] = true ∧
    Ev.removeFile (.staged "a.zip") ∈
      (processJob envArchive).trace.takeWhile notSend :=
  ⟨rfl, by decide,
   (c6_archive_atomicity envArchive { name := "a.zip", content := [80, 75, 3, 4, 9] }
     rfl (by decide)).2.1
     [{ dirs := [], name := "m1" }, { dirs := [], name := "m2" }] rfl⟩

/-- **C7, counterexample**: the claim says the failure report includes
which ordinal failed.  The `except` handler only prints the exception
text: two runs of the same archive job failing at different ordinals (0
vs 1) with the same underlying message produce bit-identical reports. -/
theorem c7_report_counterexample :
    (processJob envFail0).status = (processJob envFail1).status ∧
    (sendsOf (processJob envFail0).trace).length = 1 ∧
    (sendsOf (processJob envFail1).trace).length = 2 := by
  decide

/-- **C7, amended**: if the first upload failure of a job's upload
sequence happens at 0-based ordinal `k`, exactly the first `k + 1` upload
calls are attempted (nothing after the failed one) and the job ends
`Failed`, never `Completed`; the failure report is the fixed prefix plus
the underlying error text, which carries no ordinal information of its
own. -/
theorem c7_abort_on_failure (env : Env) (k : Nat) (e : String)
    (_hnd : extractNodup env = true)
    (hk : k < plannedUploads env)
    (hok : ∀ j, j < k → env.uploadOk j = none)
    (hfail : env.uploadOk k = some e) :
    (sendsOf (processJob env).trace).length = k + 1 ∧
    (processJob env).status = .failed (errHead ++ e) := by
  cases hf : env.fetch with
  | error e' =>
    have h0 : plannedUploads env = 0 := by simp [plannedUploads, hf]
    omega
  | ok obj =>
    cases hc : classify obj.name obj.content with
    | archive =>
      cases hx : env.extract with
      | error e' =>
        have h0 : plannedUploads env = 0 := by simp [plannedUploads, hf, hc, hx]
        omega
      | ok ms =>
        have hkms : k < ms.length := by
          have h0 : plannedUploads env = ms.length := by
            simp [plannedUploads, hf, hc, hx]
          omega
        obtain ⟨h1, h2⟩ := memberLoop_fail_at env.uploadOk ms 0 k e hkms
          (by simpa using hok) (by simpa using hfail)
        constructor
        · simp [processJob, hf, hc, hx, h1, h2]
        · simp [processJob, hf, hc, hx, h1]
    | plain =>
      by_cases hbig : chunkLimit < obj.content.length
      · have hkcs : k < (chunks chunkLimit obj.content).length := by
          have h0 : plannedUploads env = (chunks chunkLimit obj.content).length := by
            simp [plannedUploads, hf, hc, hbig]
          omega
        obtain ⟨h1, h2⟩ := chunkLoop_fail_at env.uploadOk obj.name
          obj.content.length (chunks chunkLimit obj.content) 0 k e hkcs
          (by simpa using hok) (by simpa using hfail)
        constructor
        · simp [processJob, hf, hc, hbig, h1, h2]
        · simp [processJob, hf, hc, hbig, h1]
      · have h1 : plannedUploads env = 1 := by simp [plannedUploads, hf, hc, hbig]
        have hk0 : k = 0 := by omega
        subst hk0
        constructor
        · simp [processJob, hf, hc, hbig, hfail]
        · simp [processJob, hf, hc, hbig, hfail]

/-- Witness for **C7, amended**: the two-member archive whose second
upload (ordinal 1) raises `"boom"`. -/
theorem c7_abort_on_failure_witness :
    extractNodup envFail1 = true ∧
    1 < plannedUploads envFail1 ∧
    (∀ j, j < 1 → envFail1.uploadOk j = none) ∧
    envFail1.uploadOk 1 = some "boom" ∧
    ((sendsOf (processJob envFail1).trace).length = 1 + 1 ∧
     (processJob envFail1).status = .failed (errHead ++ "boom")) :=
  ⟨by decide, by decide,
   fun j hj => by
     have hj0 : j = 0 := by omega
     subst hj0
     rfl,
   rfl,
   c7_abort_on_failure envFail1 1 "boom" (by decide) (by decide)
     (fun j hj => by
       have hj0 : j = 0 := by omega
       subst hj0
       rfl)
     rfl⟩

/-- **C8**: classification depends only on the fetched object's bytes,
never on its name: equal contents classify identically under any two
names; contents starting with the zip signature are `archive`; contents
without it are `plain` whatever the name suggests. -/
theorem c8_classify_content_only (n₁ n₂ : String) (c : List Nat) :
    classify n₁ c = classify n₂ c ∧
    (zipSignature.isPrefixOf c = true → classify n₁ c = .archive) ∧
    (zipSignature.isPrefixOf c = false → classify n₁ c = .plain) := by
  refine ⟨rfl, ?_, ?_⟩ <;> intro h <;> simp [classify, is_zipfile, h]

/-- Witness for **C8**: signature-led bytes are `archive` under a plain
name, signatureless bytes are `plain` under an archive-like name. -/
theorem c8_classify_content_only_witness :
    classify "a.zip" [80, 75, 3, 4, 1] = classify "b.txt" [80, 75, 3, 4, 1] ∧
    classify "plain.bin" [80, 75, 3, 4, 1] = .archive ∧
    classify "fake.zip" [0, 1, 2] = .plain :=
  ⟨(c8_classify_content_only "a.zip" "b.txt" [80, 75, 3, 4, 1]).1,
   (c8_classify_content_only "plain.bin" "x" [80, 75, 3, 4, 1]).2.1 (by decide),
   (c8_classify_content_only "fake.zip" "x" [0, 1, 2]).2.2 (by decide)⟩

/-- **C9**: after every member of an archive that expanded into at least
one subdirectory has been uploaded and removed, the non-recursive
`os.rmdir` of the extraction directory raises "Directory not empty", so
the job is reported failed even though all uploads succeeded. -/
theorem c9_rmdir_nonrecursive (env : Env) (obj : FetchedObject)
    (ms : List MemberFile)
    (hf : env.fetch = .ok obj) (hz : is_zipfile obj.content = true)
    (hx : env.extract = .ok ms)
    (_hnd : (memberPaths ms).Nodup)
    (hok : ∀ j, j < ms.length → env.uploadOk j = none)
    (hsub : ∃ m ∈ ms, m.dirs ≠ []) :
    (processJob env).status = .failed (errHead ++ rmdirErrMsg) ∧
    (sendsOf (processJob env).trace).length = ms.length := by
  have hc : classify obj.name obj.content = .archive := by simp [classify, hz]
  obtain ⟨h1, h2⟩ := memberLoop_all_ok env.uploadOk ms 0 (by simpa using hok)
  have hne : ¬ (extractedSubdirs ms = []) := by
    obtain ⟨m, hm, hd⟩ := hsub
    intro hh
    have hmem : m.dirs ∈ extractedSubdirs ms := by
      refine List.mem_filter.mpr ⟨List.mem_map.mpr ⟨m, hm, rfl⟩, ?_⟩
      simp [hd]
    rw [hh] at hmem
    simp at hmem
  constructor
  · simp [processJob, hf, hc, hx, h1, hne]
  · simp [processJob, hf, hc, hx, h1, hne, h2]

/-- Witness for **C9**: the archive with a single member inside `sub/`. -/
theorem c9_rmdir_nonrecursive_witness :
    envArchiveSub.fetch = .ok { name := "a.zip", content := [80, 75, 3, 4, 9] } ∧
    is_zipfile [80, 75, 3, 4, 9] = true ∧
    envArchiveSub.extract = .ok [{ dirs := ["sub"], name := "m1" }] ∧
    (memberPaths [{ dirs := ["sub"], name := "m1" }]).Nodup ∧
    (∃ m ∈ [({ dirs := ["sub"], name := "m1" } : MemberFile)], m.dirs ≠ []) ∧
    ((processJob envArchiveSub).status = .failed (errHead ++ rmdirErrMsg) ∧
     (sendsOf (processJob envArchiveSub).trace).length = 1) :=
  ⟨rfl, by decide, rfl, by decide,
   ⟨{ dirs := ["sub"], name := "m1" }, by simp, by simp⟩,
   c9_rmdir_nonrecursive envArchiveSub
     { name := "a.zip", content := [80, 75, 3, 4, 9] }
     [{ dirs := ["sub"], name := "m1" }] rfl (by decide) rfl (by decide)
     (fun _ _ => rfl)
     ⟨{ dirs := ["sub"], name := "m1" }, by simp, by simp⟩⟩

/-- `current_size / file_size * 100` is exactly 100 when the two sizes
agree and the file is non-empty, and the guard yields 0 on an empty
file. -/
theorem progressPct_self (S : Nat) :
    progressPct S S = if 0 < S then (100 : ℚ) else 0 := by
  unfold progressPct
  by_cases h : 0 < S
  · have hS : (S : ℚ) ≠ 0 := Nat.cast_ne_zero.mpr (by omega)
    simp [h, div_self hS]
  · simp [h]

/-- **C10**: `update_progress` samples the file's size at invocation as
the expected final size, so on a file whose size does not change the
completion condition holds at the first poll: exactly one update is
emitted (100% if non-empty, 0% if empty) and the loop ends without
sleeping. -/
theorem c10_progress_single_update (sizes : Nat → Option Nat) (S fuel : Nat)
    (hconst : ∀ t, sizes t = some S) (hfuel : 0 < fuel) :
    update_progress sizes fuel =
      some ([if 0 < S then (100 : ℚ) else 0], 0) := by
  cases fuel with
  | zero => omega
  | succ f =>
    unfold update_progress
    rw [hconst 0]
    simp only [Option.map_some']
    unfold progressLoop
    rw [hconst 1]
    simp [progressPct_self]

/-- Witness for **C10** on a 5-byte file observed constant. -/
theorem c10_progress_single_update_witness :
    (∀ t, (fun _ : Nat => some 5) t = some 5) ∧ 0 < 1 ∧
    update_progress (fun _ => some 5) 1 =
      some ([if 0 < 5 then (100 : ℚ) else 0], 0) :=
  ⟨fun _ => rfl, by decide,
   c10_progress_single_update (fun _ => some 5) 5 1 (fun _ => rfl) (by decide)⟩

